import Mathlib

/-!
Verification of the README-stats pipeline (`scripts/update_stats.py`).

The script fetches a user's GitHub activity over GraphQL, aggregates
per-year contribution records into per-repository totals, classifies
repositories as owned vs. external, sorts, renders a Markdown block and
splices it into `README.md` between two sentinel markers.

This file is a shallow embedding of that script: network responses become
explicit parameters (the list of contribution years, the per-year
repository maps, the pages of the owned-repository listing), Python dicts
become association lists with first-key lookup and insertion-order
iteration, and Python's stable `list.sort` becomes a stable insertion
sort over the same total preorder.
-/

/-- A per-repository aggregate record, mirroring the dict values built by
`collect_by_year` / merged in `aggregate_contributions_all_time`:
`{"url": ..., "stars": ..., "forks": ..., "commit": ..., "pr": ..., "issue": ...}`. -/
structure RepoRec where
  url : String
  stars : Nat
  forks : Nat
  commit : Nat
  pr : Nat
  issue : Nat
deriving DecidableEq, Repr

/-- A Python dict keyed by repository full name, embedded as an
association list in insertion order. -/
abbrev RepoMap := List (String × RepoRec)

/-- First-match lookup, the embedding of `merged[name]` / `name in merged`. -/
def lookupA : RepoMap → String → Option RepoRec
  | [], _ => none
  | (n, r) :: rest, k => if n = k then some r else lookupA rest k

/-- In-place update of the first entry with the given key (Python dict
assignment to an existing key keeps its position). -/
def updateA : RepoMap → String → RepoRec → RepoMap
  | [], _, _ => []
  | (n, r) :: rest, k, v => if n = k then (n, v) :: rest else (n, r) :: updateA rest k v

/-- The keys of the dict, in insertion order. -/
def keysOf (m : RepoMap) : List String := m.map Prod.fst

/-- The merge step of `aggregate_contributions_all_time` lines 124-128 for an
already-present key: sum `commit`/`pr`/`issue`, overwrite `stars`/`forks`/`url`
with the newly observed snapshot. -/
def combineRec (old new : RepoRec) : RepoRec :=
  { url := new.url, stars := new.stars, forks := new.forks,
    commit := old.commit + new.commit, pr := old.pr + new.pr,
    issue := old.issue + new.issue }

/-- One iteration of the inner loop of `aggregate_contributions_all_time`
(lines 120-128): if the key is unseen, append a copy of the record (the
subsequent snapshot overwrite is then a no-op); otherwise sum the three
counters and overwrite the snapshot. -/
def mergeOne (m : RepoMap) (k : String) (r : RepoRec) : RepoMap :=
  match lookupA m k with
  | none => m ++ [(k, r)]
  | some old => updateA m k (combineRec old r)

/-- Folding one year's `part.items()` into `merged`, in iteration order. -/
def mergeYear (m : RepoMap) (part : RepoMap) : RepoMap :=
  part.foldl (fun acc e => mergeOne acc e.1 e.2) m

/-- Insert an integer into a sorted duplicate-free list, keeping it sorted
and duplicate-free. -/
def insSortedDedup (x : Int) : List Int → List Int
  | [] => [x]
  | y :: ys =>
    if x < y then x :: y :: ys
    else if x = y then y :: ys
    else y :: insSortedDedup x ys

/-- The embedding of Python's `sorted(set(l))`. -/
def sortedDedup (l : List Int) : List Int := l.foldr insSortedDedup []

/-- `get_years` (lines 55-67): sort and deduplicate the contribution years
reported by the API, then append the current UTC year if absent. -/
def get_years (cys : List Int) (cur : Int) : List Int :=
  let ys := sortedDedup cys
  if cur ∈ ys then ys else ys ++ [cur]

/-- The `merged` dict of `aggregate_contributions_all_time` (lines 116-128):
fold each year's `collect_by_year` result into the store, years in the
order produced by `get_years`.  `collect y` stands for the repository map
returned by `collect_by_year(y)`. -/
def mergedAllTime (cys : List Int) (cur : Int) (collect : Int → RepoMap) : RepoMap :=
  (get_years cys cur).foldl (fun m y => mergeYear m (collect y)) []

/-- A classified output row (lines 135-138). -/
structure Row where
  name : String
  url : String
  stars : Nat
  forks : Nat
  commit : Nat
  pr : Nat
  issue : Nat
  total : Nat
deriving DecidableEq, Repr

/-- The row built for a surviving record (lines 135-138). -/
def mkRow (name : String) (v : RepoRec) : Row :=
  { name := name, url := v.url, stars := v.stars, forks := v.forks,
    commit := v.commit, pr := v.pr, issue := v.issue,
    total := v.commit + v.pr + v.issue }

/-- ASCII lower-casing of a character list (Python `str.lower()`; the
logins and owner names at stake are ASCII). -/
def lowerL (s : List Char) : List Char := s.map Char.toLower

/-- Python `name.split(sep)` for a one-character separator: split on every
occurrence, keeping empty pieces; never returns an empty list. -/
def splitCh (c : Char) : List Char → List (List Char)
  | [] => [[]]
  | a :: rest =>
    if a = c then [] :: splitCh c rest
    else
      match splitCh c rest with
      | [] => [[a]]
      | g :: gs => (a :: g) :: gs

/-- Line 139: `name.split("/")[0].lower() if "/" in name else ""`. -/
def ownerSeg (name : String) : List Char :=
  if name.data.contains '/' then lowerL ((splitCh '/' name.data).headD []) else []

/-- Lines 130-140 of `aggregate_contributions_all_time`: drop records with
`total == 0`, build a row for the rest and route it to `mine` (owner equals
the login, case-insensitively) or `others`, preserving iteration order. -/
def classifyRaw (login : String) : RepoMap → List Row × List Row
  | [] => ([], [])
  | (name, v) :: rest =>
    let res := classifyRaw login rest
    if v.commit + v.pr + v.issue = 0 then res
    else if ownerSeg name = lowerL login.data then (mkRow name v :: res.1, res.2)
    else (res.1, mkRow name v :: res.2)

/-- Stable insertion into a list sorted by the boolean preorder `le`:
the new element goes in front of the first element it is `le`-related to,
hence after every earlier-inserted equivalent element. -/
def insLe (le : α → α → Bool) (x : α) : List α → List α
  | [] => [x]
  | y :: ys => if le x y then x :: y :: ys else y :: insLe le x ys

/-- Stable insertion sort.  Python's `list.sort(key=...)` is a stable sort
by the total preorder induced by the key, so any stable sort by the same
preorder produces the same list; we use insertion sort. -/
def sortLe (le : α → α → Bool) (l : List α) : List α := l.foldr (insLe le) []

/-- The comparator induced by `key=lambda r: (-r["stars"], -r["forks"])`
(line 142): descending stars, ties broken by descending forks. -/
def rowLe (a b : Row) : Bool :=
  decide (b.stars < a.stars ∨ (a.stars = b.stars ∧ b.forks ≤ a.forks))

/-- The classified, sorted output of `aggregate_contributions_all_time`
(lines 142-146). -/
structure Agg where
  mine : List Row
  others : List Row
  count_total : Nat
deriving DecidableEq, Repr

/-- `aggregate_contributions_all_time` (lines 115-146), with the network
responses as parameters: `cys` are the reported contribution years, `cur`
the current UTC year, `collect y` the map returned by `collect_by_year(y)`. -/
def aggregate_contributions_all_time (login : String) (cys : List Int) (cur : Int)
    (collect : Int → RepoMap) : Agg :=
  let mo := classifyRaw login (mergedAllTime cys cur collect)
  let mineS := sortLe rowLe mo.1
  let othersS := sortLe rowLe mo.2
  { mine := mineS, others := othersS, count_total := mineS.length + othersS.length }

/-- One owned-repository node as accumulated by the pager (lines 42-47). -/
structure RepoEntry where
  name : String
  url : String
  stars : Nat
  forks : Nat
deriving DecidableEq, Repr

/-- The comparator of line 52: `key=lambda x: (-x["stars"], -x["forks"])`. -/
def entryLe (a b : RepoEntry) : Bool :=
  decide (b.stars < a.stars ∨ (a.stars = b.stars ∧ b.forks ≤ a.forks))

/-- `get_own_public_repos_and_total_stars` (lines 24-53): walk every page of
the cursor-paginated listing, accumulating the repository sequence in API
order and the running star total, then sort by descending stars/forks.
`pages` is the sequence of `nodes` lists returned by the collaborator. -/
def get_own_public_repos_and_total_stars (pages : List (List RepoEntry)) :
    List RepoEntry × Nat :=
  let acc := pages.foldl
    (fun acc page => page.foldl (fun a n => (a.1 ++ [n], a.2 + n.stars)) acc)
    (([] : List RepoEntry), 0)
  (sortLe entryLe acc.1, acc.2)

/-- Strip every trailing occurrence of `c` (Python `s.rstrip(c)`). -/
def rstripC (c : Char) (s : String) : String :=
  String.mk ((s.data.reverse.dropWhile (fun a => a = c)).reverse)

/-- Round `a / b` to the nearest integer, ties to even (the IEEE-754
rounding used both by the float division and by CPython's
correctly-rounded decimal conversion of a double). -/
def roundNearestEven (a b : Nat) : Nat :=
  let q := a / b
  let r := a % b
  if 2 * r < b then q
  else if b < 2 * r then q + 1
  else if q % 2 = 0 then q else q + 1

/-- Fueled base-2 logarithm (kernel-reducible; `log2fuel n n` computes
the floor logarithm for every `n`, since halving needs at most `n`
steps). -/
def log2fuel : Nat → Nat → Nat
  | 0, _ => 0
  | fuel + 1, n => if 2 ≤ n then log2fuel fuel (n / 2) + 1 else 0

/-- Floor base-2 logarithm, zero below 2. -/
def nlog2 (n : Nat) : Nat := log2fuel n n

/-- The binary64 (IEEE-754 double) value of Python's `n / 1000` for
`n ≥ 1000`, as `some (m, e)` with value `m * 2^e / 2^52` and
`2^52 ≤ m < 2^53`; `none` models the `OverflowError` Python raises when
the quotient exceeds the largest finite double.  The quotient is at
least 1 here (`to_k_plus` divides only when `n ≥ 1000`), so no
subnormal arises: the exponent is `⌊log2 (n/1000)⌋` and the significand
is the exact quotient scaled to `[2^52, 2^53)` and rounded to nearest,
ties to even, renormalizing when it rounds up to `2^53`. -/
def fl1000 (n : Nat) : Option (Nat × Nat) :=
  let e := nlog2 (n / 1000)
  let m := roundNearestEven (n * 2 ^ 52) (1000 * 2 ^ e)
  let me := if m = 2 ^ 53 then (2 ^ 52, e + 1) else (m, e)
  if 1024 ≤ me.2 then none else some me

/-- Python `f"{d:.1f}"` for the nonnegative double `d = m * 2^e / 2^52`:
the decimal numeral closest to the exact binary value of the double with
one fractional digit, ties to even — CPython's correctly-rounded
conversion, which resolves exact ties such as `1.25 → "1.2"` to the even
tenth. -/
def fmtPointOne (m e : Nat) : String :=
  let t := roundNearestEven (10 * m * 2 ^ e) (2 ^ 52)
  toString (t / 10) ++ "." ++ toString (t % 10)

/-- `to_k_plus` (lines 150-155): numbers below 1000 print as-is; larger
ones are divided by 1000 in binary64, formatted to one decimal, a
trailing `.0` stripped and `k+` appended.  `none` models the
`OverflowError` of the float division (Python integers are unbounded,
doubles are not). -/
def to_k_plus (n : Nat) : Option String :=
  if 1000 ≤ n then
    (fl1000 n).map (fun me => rstripC '.' (rstripC '0' (fmtPointOne me.1 me.2)) ++ "k+")
  else some (toString n)

/-- The exact-decimal reading of "`n/1000` formatted to one decimal
place": round the exact rational `n/100` to an integer number of tenths,
ties to even.  This is NOT the program's computation — the program
divides in binary64 first — and is kept only to exhibit the divergence
at exact decimal ties. -/
def exactOneDecEven (n : Nat) : String :=
  let q := n / 100
  let r := n % 100
  let t := if r < 50 then q else if 50 < r then q + 1
           else if q % 2 = 0 then q else q + 1
  toString (t / 10) ++ "." ++ toString (t % 10)

/-- The same exact-decimal reading with ties rounded up (the other
natural convention); also not the program's computation. -/
def exactOneDecUp (n : Nat) : String :=
  let q := n / 100
  let r := n % 100
  let t := if r < 50 then q else q + 1
  toString (t / 10) ++ "." ++ toString (t % 10)

/-- Python `w.capitalize()`: first character upper-cased, the rest
lower-cased (ASCII). -/
def capPy : List Char → List Char
  | [] => []
  | c :: rest => c.toUpper :: rest.map Char.toLower

/-- Helper for whitespace splitting: `cur` is the current word, reversed. -/
def wordsAux (cur : List Char) : List Char → List (List Char)
  | [] => if cur.isEmpty then [] else [cur.reverse]
  | c :: rest =>
    if c.isWhitespace then
      if cur.isEmpty then wordsAux [] rest else cur.reverse :: wordsAux [] rest
    else wordsAux (c :: cur) rest

/-- Python `s.split()` with no argument: split on whitespace runs,
dropping empty pieces. -/
def wordsOf (s : List Char) : List (List Char) := wordsAux [] s

/-- Replace every occurrence of the character `a` by `b`
(Python `s.replace("-", " ")` for one-character arguments). -/
def replaceCh (a b : Char) (s : List Char) : List Char :=
  s.map (fun c => if c = a then b else c)

/-- `pretty_repo_text` (lines 157-164): take the segment after the last
`/`, turn hyphens and underscores into spaces, capitalize each
whitespace-delimited word and join with single spaces. -/
def pretty_repo_text (full_name : String) : String :=
  let repo := (splitCh '/' full_name.data).getLastD []
  let pretty := replaceCh '_' ' ' (replaceCh '-' ' ' repo)
  String.mk (List.intercalate [' '] ((wordsOf pretty).map capPy))

/-- The start sentinel `<!--STATS:START-->` of the README region. -/
def startChars : List Char := "<!--STATS:START-->".data

/-- The end sentinel `<!--STATS:END-->` of the README region. -/
def endChars : List Char := "<!--STATS:END-->".data

/-- `begs p s`: does `s` begin with `p`? -/
def begs : List Char → List Char → Bool
  | [], _ => true
  | _ :: _, [] => false
  | a :: as, b :: bs => if a = b then begs as bs else false

/-- Find the leftmost occurrence of `p` in `s`, returning the text before
it and the text after it.  This is how the regex engine locates the
literal group `(<!--STATS:START-->)` and, lazily, the first
`(<!--STATS:END-->)` after it. -/
def splitFirst (p : List Char) : List Char → Option (List Char × List Char)
  | [] => if begs p [] = true then some ([], []) else none
  | c :: rest =>
    if begs p (c :: rest) = true then some ([], (c :: rest).drop p.length)
    else
      match splitFirst p rest with
      | none => none
      | some (a, b) => some (c :: a, b)

/-- Does the text contain a start marker with an end marker after it,
i.e. does the pattern `(<!--STATS:START-->)(.*?)(<!--STATS:END-->)` match? -/
def hasMarkerPair (s : List Char) : Bool :=
  match splitFirst startChars s with
  | none => false
  | some (_, r) => (splitFirst endChars r).isSome

/-- The substitution loop of `re.sub` (line 245): find the next marker
pair, emit `\1\n<block>\n\3`, continue after the match; if no further
match, emit the remaining text unchanged.  The fuel only bounds the
number of replaced regions; each match consumes both markers, so
`length + 1` iterations always suffice. -/
def patchAux (block : List Char) : Nat → List Char → List Char
  | 0, s => s
  | fuel + 1, s =>
    match splitFirst startChars s with
    | none => s
    | some (pre, rest) =>
      match splitFirst endChars rest with
      | none => s
      | some (_, suf) =>
        pre ++ startChars ++ '\n' :: block ++ '\n' :: (endChars ++ patchAux block fuel suf)

/-- `re.sub(pattern, r"\1\n" + block + r"\n\3", content)` on character lists. -/
def patchCore (content block : List Char) : List Char :=
  patchAux block (content.length + 1) content

/-- The document patch of `main` (lines 244-245) on strings. -/
def patchString (content block : String) : String :=
  String.mk (patchCore content.data block.data)

/-- The outcome of the write-back step of `main` (lines 247-252). -/
structure RunOutcome where
  wrote : Bool
  status : String
  finalDoc : String
deriving DecidableEq, Repr

/-- Lines 244-252 of `main`: patch the document, write it back only when
the text changed, and print exactly one status line. -/
def mainPatchStep (content block : String) : RunOutcome :=
  let new := patchString content block
  if new = content then { wrote := false, status := "No changes.", finalDoc := content }
  else { wrote := true, status := "README updated.", finalDoc := new }

/-- Observable process effects, for the startup guard model. -/
inductive Effect where
  | netCall : Effect
  | docRead : Effect
  | docWrite : Effect
  | errOut : String → Effect
  | exitProc : Nat → Effect
deriving DecidableEq, Repr

/-- The `__main__` guard (lines 254-258): with an empty login or token the
process performs exactly a diagnostic write to stderr and `sys.exit(1)`
(`some` of that effect list); otherwise (`none`) it proceeds into
`main()`, whose first action is a network call.  `login` and `token` are
the environment values after `.strip()`, so an absent variable is the
empty string. -/
def startupCheck (login token : String) : Option (List Effect) :=
  if login = "" ∨ token = "" then
    some [Effect.errOut "Missing GH_LOGIN or GITHUB_TOKEN.", Effect.exitProc 1]
  else none

/-! ### Generic facts about the stable insertion sort -/

theorem mem_insLe (le : α → α → Bool) (x a : α) (l : List α) :
    a ∈ insLe le x l ↔ a = x ∨ a ∈ l := by
  induction l with
  | nil => simp [insLe]
  | cons y ys ih =>
    simp only [insLe]
    by_cases h : le x y = true
    · simp [h]
    · simp [h, ih]
      tauto

theorem head?_insLe (le : α → α → Bool) (x : α) (l : List α) :
    (insLe le x l).head? = some x ∨ (insLe le x l).head? = l.head? := by
  cases l with
  | nil => simp [insLe]
  | cons y ys =>
    simp only [insLe]
    by_cases h : le x y = true
    · simp [h]
    · simp [h]

theorem chain'_insLe (le : α → α → Bool)
    (htot : ∀ a b, le a b = true ∨ le b a = true)
    (x : α) (l : List α) (h : l.Chain' (fun a b => le a b = true)) :
    (insLe le x l).Chain' (fun a b => le a b = true) := by
  induction l with
  | nil => simp [insLe]
  | cons y ys ih =>
    simp only [insLe]
    by_cases hxy : le x y = true
    · simp only [hxy, if_pos]
      exact List.Chain'.cons hxy h
    · simp only [hxy]
      rw [if_neg (by simp [hxy])]
      have hyx : le y x = true := (htot x y).resolve_left hxy
      have htail : (insLe le x ys).Chain' (fun a b => le a b = true) := ih h.tail
      rw [List.chain'_cons']
      refine ⟨?_, htail⟩
      intro z hz
      rcases head?_insLe le x ys with hh | hh
      · rw [hh] at hz
        cases hz
        exact hyx
      · rw [hh] at hz
        cases ys with
        | nil => simp at hz
        | cons w ws =>
          simp at hz
          subst hz
          exact (List.chain'_cons.mp h).1

theorem chain'_sortLe (le : α → α → Bool)
    (htot : ∀ a b, le a b = true ∨ le b a = true) (l : List α) :
    (sortLe le l).Chain' (fun a b => le a b = true) := by
  induction l with
  | nil => simp [sortLe]
  | cons x xs ih => exact chain'_insLe le htot x (sortLe le xs) ih

theorem filter_insLe_pos (le : α → α → Bool) (p : α → Bool) (x : α) (l : List α)
    (hx : p x = true) (hcl : ∀ y, le x y = false → p y = false) :
    (insLe le x l).filter p = x :: l.filter p := by
  induction l with
  | nil => simp [insLe, hx]
  | cons y ys ih =>
    simp only [insLe]
    by_cases hxy : le x y = true
    · simp [hxy, List.filter, hx]
    · rw [if_neg (by simp [hxy])]
      have hpy : p y = false := hcl y (by simpa using hxy)
      simp [List.filter, hpy, ih]

theorem filter_insLe_neg (le : α → α → Bool) (p : α → Bool) (x : α) (l : List α)
    (hx : p x = false) :
    (insLe le x l).filter p = l.filter p := by
  induction l with
  | nil => simp [insLe, hx]
  | cons y ys ih =>
    simp only [insLe]
    by_cases hxy : le x y = true
    · simp [hxy, List.filter, hx]
    · rw [if_neg (by simp [hxy])]
      cases hpy : p y <;> simp [List.filter, hpy, ih]

theorem filter_sortLe (le : α → α → Bool) (p : α → Bool)
    (hcls : ∀ a b, p a = true → p b = true → le a b = true) (l : List α) :
    (sortLe le l).filter p = l.filter p := by
  induction l with
  | nil => simp [sortLe]
  | cons x xs ih =>
    show (insLe le x (sortLe le xs)).filter p = (x :: xs).filter p
    by_cases hx : p x = true
    · rw [filter_insLe_pos le p x (sortLe le xs) hx ?hcl, ih]
      · simp [List.filter, hx]
      case hcl =>
        intro y hy
        by_contra hpy
        simp only [Bool.not_eq_false] at hpy
        rw [hcls x y hx hpy] at hy
        cases hy
    · simp only [Bool.not_eq_true] at hx
      rw [filter_insLe_neg le p x (sortLe le xs) hx, ih]
      simp [List.filter, hx]

theorem mem_sortLe (le : α → α → Bool) (a : α) (l : List α) :
    a ∈ sortLe le l ↔ a ∈ l := by
  induction l with
  | nil => simp [sortLe]
  | cons x xs ih =>
    show a ∈ insLe le x (sortLe le xs) ↔ _
    rw [mem_insLe]
    simp [ih]

theorem summap_insLe (le : α → α → Bool) (f : α → Nat) (x : α) (l : List α) :
    ((insLe le x l).map f).sum = f x + (l.map f).sum := by
  induction l with
  | nil => simp [insLe]
  | cons y ys ih =>
    simp only [insLe]
    by_cases hxy : le x y = true
    · simp [hxy]
    · rw [if_neg (by simp [hxy])]
      simp [ih]
      omega

theorem summap_sortLe (le : α → α → Bool) (f : α → Nat) (l : List α) :
    ((sortLe le l).map f).sum = (l.map f).sum := by
  induction l with
  | nil => simp [sortLe]
  | cons x xs ih =>
    show ((insLe le x (sortLe le xs)).map f).sum = _
    rw [summap_insLe]
    simp [ih]

theorem length_insLe (le : α → α → Bool) (x : α) (l : List α) :
    (insLe le x l).length = l.length + 1 := by
  induction l with
  | nil => simp [insLe]
  | cons y ys ih =>
    simp only [insLe]
    by_cases hxy : le x y = true
    · simp [hxy]
    · rw [if_neg (by simp [hxy])]
      simp [ih]

theorem length_sortLe (le : α → α → Bool) (l : List α) :
    (sortLe le l).length = l.length := by
  induction l with
  | nil => rfl
  | cons x xs ih =>
    show (insLe le x (sortLe le xs)).length = _
    rw [length_insLe, ih]
    rfl

theorem rowLe_total (a b : Row) : rowLe a b = true ∨ rowLe b a = true := by
  simp only [rowLe, decide_eq_true_eq]
  omega

theorem entryLe_total (a b : RepoEntry) : entryLe a b = true ∨ entryLe b a = true := by
  simp only [entryLe, decide_eq_true_eq]
  omega

/-! ### Facts about the record store -/

theorem lookupA_eq_none_iff (m : RepoMap) (k : String) :
    lookupA m k = none ↔ k ∉ keysOf m := by
  induction m with
  | nil => simp [lookupA, keysOf]
  | cons e rest ih =>
    obtain ⟨n, r⟩ := e
    by_cases h : n = k
    · subst h
      simp [lookupA, keysOf]
    · rw [show lookupA ((n, r) :: rest) k = lookupA rest k by simp [lookupA, h], ih]
      simp only [keysOf, List.map_cons, List.mem_cons]
      constructor
      · intro hnk hor
        rcases hor with he | hm
        · exact h he.symm
        · exact hnk hm
      · intro hall hm
        exact hall (Or.inr hm)

theorem lookupA_mem (m : RepoMap) (k : String) (v : RepoRec)
    (h : lookupA m k = some v) : (k, v) ∈ m := by
  induction m with
  | nil => simp [lookupA] at h
  | cons e rest ih =>
    obtain ⟨n, r⟩ := e
    by_cases hn : n = k
    · subst hn
      simp [lookupA] at h
      simp [h]
    · simp [lookupA, hn] at h
      exact List.mem_cons_of_mem _ (ih h)

theorem lookupA_unique (m : RepoMap) (k : String) (v v' : RepoRec)
    (hnd : (keysOf m).Nodup) (h : (k, v) ∈ m) (h' : (k, v') ∈ m) : v = v' := by
  induction m with
  | nil => simp at h
  | cons e rest ih =>
    obtain ⟨n, r⟩ := e
    have hnd1 : n ∉ keysOf rest := by
      simpa [keysOf] using (List.nodup_cons.mp hnd).1
    have hnd2 : (keysOf rest).Nodup := by
      simpa [keysOf] using (List.nodup_cons.mp hnd).2
    rcases List.mem_cons.mp h with he | hm
    · rcases List.mem_cons.mp h' with he' | hm'
      · have e1 := (Prod.mk.injEq _ _ _ _).mp he
        have e2 := (Prod.mk.injEq _ _ _ _).mp he'
        rw [e1.2, e2.2]
      · exfalso
        have hn : n = k := ((Prod.mk.injEq _ _ _ _).mp he).1.symm
        have hk : k ∈ keysOf rest := List.mem_map.mpr ⟨(k, v'), hm', rfl⟩
        exact hnd1 (hn ▸ hk)
    · rcases List.mem_cons.mp h' with he' | hm'
      · exfalso
        have hn : n = k := ((Prod.mk.injEq _ _ _ _).mp he').1.symm
        have hk : k ∈ keysOf rest := List.mem_map.mpr ⟨(k, v), hm, rfl⟩
        exact hnd1 (hn ▸ hk)
      · exact ih hnd2 hm hm'

theorem lookupA_append_single (m : RepoMap) (k k' : String) (r : RepoRec) :
    lookupA (m ++ [(k, r)]) k' =
      match lookupA m k' with
      | some v => some v
      | none => if k = k' then some r else none := by
  induction m with
  | nil => simp [lookupA]
  | cons e rest ih =>
    obtain ⟨n, v⟩ := e
    by_cases h : n = k'
    · subst h
      simp [lookupA]
    · simp [lookupA, h, ih]

theorem lookupA_updateA_self (m : RepoMap) (k : String) (v w : RepoRec)
    (h : lookupA m k = some w) : lookupA (updateA m k v) k = some v := by
  induction m with
  | nil => simp [lookupA] at h
  | cons e rest ih =>
    obtain ⟨n, r⟩ := e
    by_cases hn : n = k
    · subst hn
      simp [lookupA, updateA]
    · simp [lookupA, hn] at h
      simp [lookupA, updateA, hn]
      exact ih h

theorem lookupA_updateA_other (m : RepoMap) (k k' : String) (v : RepoRec)
    (h : k ≠ k') : lookupA (updateA m k v) k' = lookupA m k' := by
  induction m with
  | nil => simp [updateA]
  | cons e rest ih =>
    obtain ⟨n, r⟩ := e
    by_cases hn : n = k
    · subst hn
      simp [updateA, lookupA, h]
    · simp [updateA, hn, lookupA]
      by_cases hn' : n = k'
      · simp [hn']
      · simp [hn', ih]

theorem keysOf_updateA (m : RepoMap) (k : String) (v : RepoRec) :
    keysOf (updateA m k v) = keysOf m := by
  induction m with
  | nil => rfl
  | cons e rest ih =>
    obtain ⟨n, r⟩ := e
    by_cases hn : n = k
    · subst hn
      simp [updateA, keysOf]
    · simp [updateA, hn, keysOf] at ih ⊢
      exact ih

theorem lookupA_mergeOne_self_none (m : RepoMap) (k : String) (r : RepoRec)
    (h : lookupA m k = none) : lookupA (mergeOne m k r) k = some r := by
  rw [mergeOne, h, lookupA_append_single, h]
  simp

theorem lookupA_mergeOne_self_some (m : RepoMap) (k : String) (r old : RepoRec)
    (h : lookupA m k = some old) :
    lookupA (mergeOne m k r) k = some (combineRec old r) := by
  rw [mergeOne, h]
  exact lookupA_updateA_self m k _ old h

theorem lookupA_mergeOne_other (m : RepoMap) (k k' : String) (r : RepoRec)
    (h : k ≠ k') : lookupA (mergeOne m k r) k' = lookupA m k' := by
  rw [mergeOne]
  cases hm : lookupA m k with
  | none =>
    rw [lookupA_append_single]
    cases hm' : lookupA m k' with
    | none => simp [h]
    | some v => simp
  | some old => exact lookupA_updateA_other m k k' _ h

theorem keysOf_mergeOne_of_none (m : RepoMap) (k : String) (r : RepoRec)
    (h : lookupA m k = none) : keysOf (mergeOne m k r) = keysOf m ++ [k] := by
  rw [mergeOne, h]
  simp [keysOf]

theorem keysOf_mergeOne_of_some (m : RepoMap) (k : String) (r old : RepoRec)
    (h : lookupA m k = some old) : keysOf (mergeOne m k r) = keysOf m := by
  rw [mergeOne, h]
  exact keysOf_updateA m k _

theorem nodup_mergeOne (m : RepoMap) (k : String) (r : RepoRec)
    (hnd : (keysOf m).Nodup) : (keysOf (mergeOne m k r)).Nodup := by
  cases h : lookupA m k with
  | none =>
    rw [keysOf_mergeOne_of_none m k r h]
    have hk : k ∉ keysOf m := (lookupA_eq_none_iff m k).mp h
    simpa using List.Nodup.append hnd (by simp) (by simpa [List.disjoint_singleton] using hk)
  | some old =>
    rw [keysOf_mergeOne_of_some m k r old h]
    exact hnd

theorem nodup_mergeYear (part : RepoMap) (m : RepoMap)
    (hnd : (keysOf m).Nodup) : (keysOf (mergeYear m part)).Nodup := by
  induction part generalizing m with
  | nil => exact hnd
  | cons e rest ih =>
    exact ih (mergeOne m e.1 e.2) (nodup_mergeOne m e.1 e.2 hnd)

theorem nodup_mergedAllTime (cys : List Int) (cur : Int) (collect : Int → RepoMap) :
    (keysOf (mergedAllTime cys cur collect)).Nodup := by
  rw [mergedAllTime]
  generalize get_years cys cur = ys
  have h : ∀ (ys : List Int) (m : RepoMap), (keysOf m).Nodup →
      (keysOf (ys.foldl (fun m y => mergeYear m (collect y)) m)).Nodup := by
    intro ys
    induction ys with
    | nil => intro m hm; exact hm
    | cons y ys ih =>
      intro m hm
      exact ih (mergeYear m (collect y)) (nodup_mergeYear (collect y) m hm)
  exact h ys [] (by simp [keysOf])

/-- Lookup through one year's fold: with duplicate-free keys in the part
(it is a Python dict), the part contributes its record for `k` (if any)
exactly once, combined onto whatever the store already holds. -/
theorem lookupA_mergeYear (part : RepoMap) (m : RepoMap) (k : String)
    (hnd : (keysOf part).Nodup) :
    lookupA (mergeYear m part) k =
      match lookupA part k with
      | none => lookupA m k
      | some r =>
        match lookupA m k with
        | none => some r
        | some old => some (combineRec old r) := by
  induction part generalizing m with
  | nil => simp [mergeYear, lookupA]
  | cons e rest ih =>
    obtain ⟨n, r0⟩ := e
    have hnd' : (n :: keysOf rest).Nodup := hnd
    have hnd1 : n ∉ keysOf rest := (List.nodup_cons.mp hnd').1
    have hnd2 : (keysOf rest).Nodup := (List.nodup_cons.mp hnd').2
    have hstep : mergeYear m ((n, r0) :: rest) = mergeYear (mergeOne m n r0) rest := by
      simp [mergeYear]
    rw [hstep, ih (mergeOne m n r0) hnd2]
    by_cases hk : n = k
    · subst hk
      have hrest : lookupA rest n = none := (lookupA_eq_none_iff rest n).mpr hnd1
      rw [hrest]
      simp only [lookupA, if_pos rfl]
      cases hm : lookupA m n with
      | none =>
        rw [lookupA_mergeOne_self_none m n r0 hm]
        simp
      | some old =>
        rw [lookupA_mergeOne_self_some m n r0 old hm]
        simp
    · rw [lookupA_mergeOne_other m n k r0 hk]
      simp only [lookupA, if_neg hk]

/-- The observations of repository `k` across the processed parts, in
processing order: the record `collect_by_year` reported for `k` in each
year that mentions `k`. -/
def occList (parts : List RepoMap) (k : String) : List RepoRec :=
  parts.filterMap (fun p => lookupA p k)

/-- Merging a sequence of observations onto an optional already-stored
record, the way the year loop does. -/
def mergeOpt : Option RepoRec → List RepoRec → Option RepoRec
  | some r, occs => some (occs.foldl combineRec r)
  | none, [] => none
  | none, o :: os => some (os.foldl combineRec o)

theorem mergeOpt_append (b : Option RepoRec) (xs ys : List RepoRec) :
    mergeOpt (mergeOpt b xs) ys = mergeOpt b (xs ++ ys) := by
  cases b with
  | some r => simp [mergeOpt, List.foldl_append]
  | none =>
    cases xs with
    | nil => simp [mergeOpt]
    | cons x xs' => simp [mergeOpt, List.foldl_append]

/-- The heart of the all-time aggregation: folding the per-year parts into
the store leaves, at each key, exactly the observations for that key
combined in processing order. -/
theorem lookupA_foldl_mergeYear (parts : List RepoMap) (m : RepoMap) (k : String)
    (hnd : ∀ p ∈ parts, (keysOf p).Nodup) :
    lookupA (parts.foldl mergeYear m) k = mergeOpt (lookupA m k) (occList parts k) := by
  induction parts generalizing m with
  | nil =>
    cases h : lookupA m k <;> simp [occList, mergeOpt, h]
  | cons p ps ih =>
    have hp : (keysOf p).Nodup := hnd p (List.mem_cons_self p ps)
    have hps : ∀ q ∈ ps, (keysOf q).Nodup := fun q hq => hnd q (List.mem_cons_of_mem p hq)
    have hocc : occList (p :: ps) k =
        (match lookupA p k with | none => [] | some r => [r]) ++ occList ps k := by
      cases h : lookupA p k <;> simp [occList, List.filterMap_cons, h]
    rw [List.foldl_cons, ih (mergeYear m p) hps, hocc, ← mergeOpt_append]
    congr 1
    rw [lookupA_mergeYear p m k hp]
    cases h : lookupA p k with
    | none => cases hm : lookupA m k <;> simp [mergeOpt]
    | some r =>
      cases hm : lookupA m k with
      | none => simp [mergeOpt]
      | some old => simp [mergeOpt]

/-- Per-repository totals: field-wise description of a fold of
`combineRec`: the snapshot comes from the last observation, the three
counters are summed. -/
theorem foldl_combineRec_eq (os : List RepoRec) (o : RepoRec) :
    os.foldl combineRec o =
      { url := (os.getLastD o).url, stars := (os.getLastD o).stars,
        forks := (os.getLastD o).forks,
        commit := o.commit + (os.map RepoRec.commit).sum,
        pr := o.pr + (os.map RepoRec.pr).sum,
        issue := o.issue + (os.map RepoRec.issue).sum } := by
  induction os generalizing o with
  | nil =>
    simp [List.getLastD]
  | cons s ss ih =>
    rw [List.foldl_cons, ih (combineRec o s)]
    cases ss with
    | nil => simp [List.getLastD, combineRec]
    | cons t ts =>
      simp only [List.getLastD_cons, combineRec, List.map_cons, List.sum_cons,
        RepoRec.mk.injEq]
      refine ⟨trivial, trivial, trivial, by omega, by omega, by omega⟩

/-! ### `get_years` produces an ascending list -/

theorem mem_insSortedDedup (x a : Int) (l : List Int) :
    a ∈ insSortedDedup x l → a = x ∨ a ∈ l := by
  induction l with
  | nil => simp [insSortedDedup]
  | cons y ys ih =>
    simp only [insSortedDedup]
    by_cases h1 : x < y
    · simp [h1]
    · by_cases h2 : x = y
      · simp [h1, h2]
      · simp [h1, h2]
        intro ha
        rcases ha with ha | ha
        · exact Or.inr (Or.inl ha)
        · rcases ih ha with h | h
          · exact Or.inl h
          · exact Or.inr (Or.inr h)

theorem chain'_insSortedDedup (x : Int) (l : List Int)
    (h : l.Chain' (fun a b => a < b)) :
    (insSortedDedup x l).Chain' (fun a b => a < b) := by
  induction l with
  | nil => simp [insSortedDedup]
  | cons y ys ih =>
    simp only [insSortedDedup]
    by_cases h1 : x < y
    · simp only [if_pos h1]
      exact List.Chain'.cons h1 h
    · by_cases h2 : x = y
      · simp [h1, h2]
        exact h
      · simp only [if_neg h1, if_neg h2]
        have hyx : y < x := by omega
        have htail := ih h.tail
        rw [List.chain'_cons']
        refine ⟨?_, htail⟩
        intro z hz
        cases ys with
        | nil =>
          simp [insSortedDedup] at hz
          omega
        | cons w ws =>
          simp only [insSortedDedup] at hz
          by_cases h3 : x < w
          · simp [h3] at hz
            subst hz
            exact hyx
          · by_cases h4 : x = w
            · simp [h3, h4] at hz
              subst hz
              exact (List.chain'_cons.mp h).1
            · simp [h3, h4] at hz
              subst hz
              exact (List.chain'_cons.mp h).1

theorem chain'_sortedDedup (l : List Int) :
    (sortedDedup l).Chain' (fun a b => a < b) := by
  induction l with
  | nil => simp [sortedDedup]
  | cons x xs ih => exact chain'_insSortedDedup x (sortedDedup xs) ih

theorem mem_sortedDedup (a : Int) (l : List Int) :
    a ∈ sortedDedup l → a ∈ l := by
  induction l with
  | nil => simp [sortedDedup]
  | cons x xs ih =>
    intro h
    rcases mem_insSortedDedup x a (sortedDedup xs) h with h1 | h1
    · simp [h1]
    · exact List.mem_cons_of_mem x (ih h1)

theorem chain'_append_singleton (R : α → α → Prop) (l : List α) (x : α)
    (h : l.Chain' R) (hall : ∀ a ∈ l, R a x) : (l ++ [x]).Chain' R := by
  induction l with
  | nil => simp
  | cons a l ih =>
    rw [List.cons_append, List.chain'_cons']
    refine ⟨?_, ih h.tail (fun b hb => hall b (List.mem_cons_of_mem a hb))⟩
    intro z hz
    cases l with
    | nil =>
      simp at hz
      subst hz
      exact hall a (by simp)
    | cons b bs =>
      simp at hz
      subst hz
      exact (List.chain'_cons.mp h).1

/-- `get_years` is strictly ascending provided no reported contribution
year lies in the future (GitHub reports only past or current years). -/
theorem chain'_get_years (cys : List Int) (cur : Int)
    (hcur : ∀ y ∈ cys, y ≤ cur) :
    (get_years cys cur).Chain' (fun a b => a < b) := by
  rw [get_years]
  by_cases hmem : cur ∈ sortedDedup cys
  · simp only [if_pos hmem]
    exact chain'_sortedDedup cys
  · simp only [if_neg hmem]
    refine chain'_append_singleton _ _ _ (chain'_sortedDedup cys) ?_
    intro a ha
    have h1 : a ≤ cur := hcur a (mem_sortedDedup a cys ha)
    have h2 : a ≠ cur := fun he => hmem (he ▸ ha)
    omega

/-! ### Facts about the classifier -/

theorem classifyRaw_mine_sound (login : String) (m : RepoMap) (r : Row)
    (h : r ∈ (classifyRaw login m).1) :
    ∃ n v, (n, v) ∈ m ∧ r = mkRow n v ∧ v.commit + v.pr + v.issue ≠ 0 ∧
      ownerSeg n = lowerL login.data := by
  induction m with
  | nil => simp [classifyRaw] at h
  | cons e rest ih =>
    obtain ⟨name, v⟩ := e
    simp only [classifyRaw] at h
    by_cases h0 : v.commit + v.pr + v.issue = 0
    · rw [if_pos h0] at h
      obtain ⟨n, w, hm, hr, ht, ho⟩ := ih h
      exact ⟨n, w, List.mem_cons_of_mem _ hm, hr, ht, ho⟩
    · rw [if_neg h0] at h
      by_cases how : ownerSeg name = lowerL login.data
      · rw [if_pos how] at h
        rcases List.mem_cons.mp h with he | hm
        · exact ⟨name, v, List.mem_cons_self _ _, he, h0, how⟩
        · obtain ⟨n, w, hm', hr, ht, ho⟩ := ih hm
          exact ⟨n, w, List.mem_cons_of_mem _ hm', hr, ht, ho⟩
      · rw [if_neg how] at h
        obtain ⟨n, w, hm', hr, ht, ho⟩ := ih h
        exact ⟨n, w, List.mem_cons_of_mem _ hm', hr, ht, ho⟩

theorem classifyRaw_others_sound (login : String) (m : RepoMap) (r : Row)
    (h : r ∈ (classifyRaw login m).2) :
    ∃ n v, (n, v) ∈ m ∧ r = mkRow n v ∧ v.commit + v.pr + v.issue ≠ 0 ∧
      ownerSeg n ≠ lowerL login.data := by
  induction m with
  | nil => simp [classifyRaw] at h
  | cons e rest ih =>
    obtain ⟨name, v⟩ := e
    simp only [classifyRaw] at h
    by_cases h0 : v.commit + v.pr + v.issue = 0
    · rw [if_pos h0] at h
      obtain ⟨n, w, hm, hr, ht, ho⟩ := ih h
      exact ⟨n, w, List.mem_cons_of_mem _ hm, hr, ht, ho⟩
    · rw [if_neg h0] at h
      by_cases how : ownerSeg name = lowerL login.data
      · rw [if_pos how] at h
        obtain ⟨n, w, hm', hr, ht, ho⟩ := ih h
        exact ⟨n, w, List.mem_cons_of_mem _ hm', hr, ht, ho⟩
      · rw [if_neg how] at h
        rcases List.mem_cons.mp h with he | hm
        · exact ⟨name, v, List.mem_cons_self _ _, he, h0, how⟩
        · obtain ⟨n, w, hm', hr, ht, ho⟩ := ih hm
          exact ⟨n, w, List.mem_cons_of_mem _ hm', hr, ht, ho⟩

theorem classifyRaw_mine_complete (login : String) (m : RepoMap) (n : String)
    (v : RepoRec) (hm : (n, v) ∈ m) (ht : v.commit + v.pr + v.issue ≠ 0)
    (how : ownerSeg n = lowerL login.data) :
    mkRow n v ∈ (classifyRaw login m).1 := by
  induction m with
  | nil => simp at hm
  | cons e rest ih =>
    obtain ⟨name, w⟩ := e
    simp only [classifyRaw]
    rcases List.mem_cons.mp hm with he | hrest
    · have h1 : name = n := ((Prod.mk.injEq _ _ _ _).mp he.symm).1
      have h2 : w = v := ((Prod.mk.injEq _ _ _ _).mp he.symm).2
      subst h1
      subst h2
      rw [if_neg ht, if_pos how]
      exact List.mem_cons_self _ _
    · by_cases h0 : w.commit + w.pr + w.issue = 0
      · rw [if_pos h0]
        exact ih hrest
      · rw [if_neg h0]
        by_cases how' : ownerSeg name = lowerL login.data
        · rw [if_pos how']
          exact List.mem_cons_of_mem _ (ih hrest)
        · rw [if_neg how']
          exact ih hrest

theorem classifyRaw_others_complete (login : String) (m : RepoMap) (n : String)
    (v : RepoRec) (hm : (n, v) ∈ m) (ht : v.commit + v.pr + v.issue ≠ 0)
    (how : ownerSeg n ≠ lowerL login.data) :
    mkRow n v ∈ (classifyRaw login m).2 := by
  induction m with
  | nil => simp at hm
  | cons e rest ih =>
    obtain ⟨name, w⟩ := e
    simp only [classifyRaw]
    rcases List.mem_cons.mp hm with he | hrest
    · have h1 : name = n := ((Prod.mk.injEq _ _ _ _).mp he.symm).1
      have h2 : w = v := ((Prod.mk.injEq _ _ _ _).mp he.symm).2
      subst h1
      subst h2
      rw [if_neg ht, if_neg how]
      exact List.mem_cons_self _ _
    · by_cases h0 : w.commit + w.pr + w.issue = 0
      · rw [if_pos h0]
        exact ih hrest
      · rw [if_neg h0]
        by_cases how' : ownerSeg name = lowerL login.data
        · rw [if_pos how']
          exact ih hrest
        · rw [if_neg how']
          exact List.mem_cons_of_mem _ (ih hrest)

/-! ### Facts about the document patcher -/

theorem begs_append (p : List Char) : ∀ s, begs p s = true → p ++ s.drop p.length = s := by
  induction p with
  | nil =>
    intro s _
    simp
  | cons a as ih =>
    intro s h
    cases s with
    | nil => simp [begs] at h
    | cons b bs =>
      simp only [begs] at h
      by_cases hab : a = b
      · rw [if_pos hab] at h
        subst hab
        have := ih bs h
        simpa [List.drop_succ_cons] using this
      · rw [if_neg hab] at h
        cases h

theorem splitFirst_eq (p : List Char) : ∀ s a b,
    splitFirst p s = some (a, b) → s = a ++ p ++ b := by
  intro s
  induction s with
  | nil =>
    intro a b h
    simp only [splitFirst] at h
    by_cases hp : begs p [] = true
    · rw [if_pos hp] at h
      cases p with
      | nil =>
        simp at h
        simp [h.1, h.2]
      | cons c cs => simp [begs] at hp
    · rw [if_neg hp] at h
      cases h
  | cons c rest ih =>
    intro a b h
    simp only [splitFirst] at h
    by_cases hp : begs p (c :: rest) = true
    · rw [if_pos hp] at h
      have hs := begs_append p (c :: rest) hp
      simp at h
      obtain ⟨ha, hb⟩ := h
      subst ha
      subst hb
      simpa using hs.symm
    · rw [if_neg hp] at h
      cases hsp : splitFirst p rest with
      | none => rw [hsp] at h; cases h
      | some ab =>
        obtain ⟨a', b'⟩ := ab
        rw [hsp] at h
        simp at h
        rw [← h.1, ← h.2]
        have := ih a' b' hsp
        simp [this]

theorem begs_start_nil : begs startChars [] = false := by decide

theorem splitFirst_start_nil : splitFirst startChars [] = none := by decide

/-- One unfolding of the substitution loop at positive fuel. -/
theorem patchAux_succ (block : List Char) (n : Nat) (s : List Char) :
    patchAux block (n + 1) s =
      match splitFirst startChars s with
      | none => s
      | some (pre, rest) =>
        match splitFirst endChars rest with
        | none => s
        | some (_, suf) =>
          pre ++ startChars ++ '\n' :: block ++ '\n' :: (endChars ++ patchAux block n suf) :=
  rfl

/-- When the text has no marker pair left, one pass of the substitution
loop leaves it unchanged (any fuel at least 1). -/
theorem patchAux_no_pair (block : List Char) (n : Nat) (s : List Char)
    (h : hasMarkerPair s = false) : patchAux block (n + 1) s = s := by
  cases h1 : splitFirst startChars s with
  | none => simp [patchAux_succ, h1]
  | some ab =>
    obtain ⟨pre, rest⟩ := ab
    simp only [hasMarkerPair, h1] at h
    cases h2 : splitFirst endChars rest with
    | none => simp [patchAux_succ, h1, h2]
    | some cd =>
      rw [h2] at h
      simp at h

/-- The shape of a patched document whose tail holds no further marker
pair: everything strictly between the first start marker and the first
end marker after it is replaced by newline + block + newline, and the
rest of the document is preserved. -/
theorem patchCore_shape (doc block pre rest mid suf : List Char)
    (h1 : splitFirst startChars doc = some (pre, rest))
    (h2 : splitFirst endChars rest = some (mid, suf))
    (h3 : hasMarkerPair suf = false) :
    patchCore doc block =
      pre ++ startChars ++ '\n' :: block ++ '\n' :: (endChars ++ suf) := by
  have hstep : ∀ n, patchAux block (n + 1) doc =
      pre ++ startChars ++ '\n' :: block ++ '\n' :: (endChars ++ patchAux block n suf) := by
    intro n
    simp only [patchAux_succ, h1, h2]
  cases hd : doc with
  | nil =>
    rw [hd] at h1
    rw [splitFirst_start_nil] at h1
    cases h1
  | cons c cs =>
    rw [← hd]
    have hlen : doc.length = cs.length + 1 := by rw [hd]; simp
    rw [patchCore, hlen, hstep (cs.length + 1),
      patchAux_no_pair block cs.length suf h3]

/-- `String.mk` undoes `String.data`. -/
theorem stringMk_data (s : String) : String.mk s.data = s := rfl

/-! ### Facts about the pager accumulation -/

theorem pager_page_foldl (page : List RepoEntry) :
    ∀ acc : List RepoEntry × Nat,
      page.foldl (fun a n => (a.1 ++ [n], a.2 + n.stars)) acc =
        (acc.1 ++ page, acc.2 + (page.map RepoEntry.stars).sum) := by
  induction page with
  | nil => intro acc; simp
  | cons x xs ih =>
    intro acc
    rw [List.foldl_cons, ih]
    simp
    omega

theorem pager_pages_foldl (pages : List (List RepoEntry)) :
    ∀ acc : List RepoEntry × Nat,
      pages.foldl
        (fun acc page => page.foldl (fun a n => (a.1 ++ [n], a.2 + n.stars)) acc) acc =
        (acc.1 ++ pages.flatten, acc.2 + ((pages.flatten).map RepoEntry.stars).sum) := by
  induction pages with
  | nil => intro acc; simp
  | cons p ps ih =>
    intro acc
    rw [List.foldl_cons, pager_page_foldl p acc, ih]
    simp
    omega

/-! ### Facts about `splitCh` (display-name derivation) -/

theorem splitCh_ne_nil (c : Char) (l : List Char) : splitCh c l ≠ [] := by
  cases l with
  | nil => simp [splitCh]
  | cons a rest =>
    simp only [splitCh]
    by_cases h : a = c
    · simp [h]
    · simp only [if_neg h]
      cases hs : splitCh c rest with
      | nil => simp
      | cons g gs => simp

theorem splitCh_append (c : Char) (xs ys : List Char) :
    splitCh c (xs ++ c :: ys) = splitCh c xs ++ splitCh c ys := by
  induction xs with
  | nil => simp [splitCh]
  | cons a xs' ih =>
    by_cases h : a = c
    · simp only [List.cons_append, splitCh, if_pos h, List.append_eq, ih]
    · simp only [List.cons_append, splitCh, if_neg h, List.append_eq, ih]
      cases hs : splitCh c xs' with
      | nil => exact absurd hs (splitCh_ne_nil c xs')
      | cons g gs => simp [hs]

theorem getLastD_irrel (l : List α) (d1 d2 : α) (h : l ≠ []) :
    l.getLastD d1 = l.getLastD d2 := by
  cases l with
  | nil => exact absurd rfl h
  | cons a rest => rw [List.getLastD_cons, List.getLastD_cons]

theorem getLastD_append_of_ne_nil (A B : List α) (d : α) (h : B ≠ []) :
    (A ++ B).getLastD d = B.getLastD d := by
  induction A generalizing d with
  | nil => simp
  | cons a A ih =>
    rw [List.cons_append, List.getLastD_cons]
    cases hAB : A ++ B with
    | nil =>
      exact absurd (List.append_eq_nil.mp hAB).2 h
    | cons x xs =>
      rw [← hAB, ih a]
      exact getLastD_irrel B a d h

/-! ### Claims -/

/-- C7 counterexample: the claim's "`n/1000` formatted to one decimal
place" is false of the program under any exact-decimal reading, because
the program divides in binary64 first and the double decides exact
decimal ties: at `n = 1050` the program yields `"1.1k+"` while exact
rounding with ties to even gives `"1k+"`, and at `n = 1150` the program
yields `"1.1k+"` while exact rounding with ties up gives `"1.2k+"`. -/
theorem claim7_counterexample :
    to_k_plus 1050 = some "1.1k+" ∧
    rstripC '.' (rstripC '0' (exactOneDecEven 1050)) ++ "k+" = "1k+" ∧
    to_k_plus 1150 = some "1.1k+" ∧
    rstripC '.' (rstripC '0' (exactOneDecUp 1150)) ++ "k+" = "1.2k+" ∧
    (some "1.1k+" : Option String) ≠ some "1k+" ∧
    (some "1.1k+" : Option String) ≠ some "1.2k+" := by
  refine ⟨by decide, by decide, by decide, by decide, by decide, by decide⟩

/-- C7 (amended): for every natural `n`, `to_k_plus` returns the decimal
string of `n` when `n < 1000`; when `n ≥ 1000` it divides `n` by 1000 in
binary64 and formats that double to one decimal place, strips a trailing
`.0` and appends `k+` (so exact decimal ties follow the double:
`to_k_plus 1050` and `to_k_plus 1150` both yield `"1.1k+"`), an
overflowing division raising instead of returning; in particular
`to_k_plus 999 = "999"`, `to_k_plus 1000 = "1k+"` and
`to_k_plus 1234 = "1.2k+"` as cited. -/
theorem claim7 (n : Nat) :
    (n < 1000 → to_k_plus n = some (toString n)) ∧
    (1000 ≤ n → to_k_plus n =
      (fl1000 n).map
        (fun me => rstripC '.' (rstripC '0' (fmtPointOne me.1 me.2)) ++ "k+")) ∧
    to_k_plus 999 = some "999" ∧ to_k_plus 1000 = some "1k+" ∧
    to_k_plus 1234 = some "1.2k+" ∧
    to_k_plus 1050 = some "1.1k+" ∧ to_k_plus 1150 = some "1.1k+" := by
  refine ⟨?_, ?_, by decide, by decide, by decide, by decide, by decide⟩
  · intro h
    rw [to_k_plus, if_neg (by omega)]
  · intro h
    rw [to_k_plus, if_pos h]

theorem claim7_witness :
    999 < 1000 ∧ to_k_plus 999 = some (toString 999) ∧
    1000 ≤ 1234 ∧ to_k_plus 1234 =
      (fl1000 1234).map
        (fun me => rstripC '.' (rstripC '0' (fmtPointOne me.1 me.2)) ++ "k+") :=
  ⟨by decide, (claim7 999).1 (by decide), by decide, (claim7 1234).2.1 (by decide)⟩

/-- C8: the display name depends only on the segment after the last `/`
(hyphens and underscores become spaces, each whitespace-delimited word is
capitalized); in particular
`pretty_repo_text "octo/my-repo_name" = "My Repo Name"`. -/
theorem claim8 :
    pretty_repo_text "octo/my-repo_name" = "My Repo Name" ∧
    ∀ a b : String, pretty_repo_text (a ++ "/" ++ b) = pretty_repo_text b := by
  constructor
  · decide
  · intro a b
    have hdata : (a ++ "/" ++ b).data = a.data ++ ('/' :: b.data) := by
      simp [String.data_append]
    simp only [pretty_repo_text]
    rw [hdata, splitCh_append,
      getLastD_append_of_ne_nil _ _ _ (splitCh_ne_nil '/' b.data)]

/-- C9: with an empty login or an empty token (the stripped environment
values; an absent variable yields the empty string), the `__main__` guard
terminates the process with exit status 1 and a diagnostic on stderr,
performing no network call and no document read or write. -/
theorem claim9 (login token : String) (h : login = "" ∨ token = "") :
    startupCheck login token =
      some [Effect.errOut "Missing GH_LOGIN or GITHUB_TOKEN.", Effect.exitProc 1] ∧
    (1 : Nat) ≠ 0 ∧
    Effect.netCall ∉ [Effect.errOut "Missing GH_LOGIN or GITHUB_TOKEN.", Effect.exitProc 1] ∧
    Effect.docRead ∉ [Effect.errOut "Missing GH_LOGIN or GITHUB_TOKEN.", Effect.exitProc 1] ∧
    Effect.docWrite ∉ [Effect.errOut "Missing GH_LOGIN or GITHUB_TOKEN.", Effect.exitProc 1] := by
  refine ⟨?_, by decide, by simp, by simp, by simp⟩
  rw [startupCheck, if_pos h]

theorem claim9_witness :
    (("" : String) = "" ∨ ("sometoken" : String) = "") ∧
    startupCheck "" "sometoken" =
      some [Effect.errOut "Missing GH_LOGIN or GITHUB_TOKEN.", Effect.exitProc 1] :=
  ⟨Or.inl rfl, (claim9 "" "sometoken" (Or.inl rfl)).1⟩

/-- C10: the pager returns its accumulated owned-repository sequence
sorted by descending star count with ties broken by descending fork
count, and the returned total equals the sum of the star counts of
exactly the repositories in the returned sequence. -/
theorem claim10 (pages : List (List RepoEntry)) :
    ((get_own_public_repos_and_total_stars pages).1).Chain'
      (fun a b => b.stars < a.stars ∨ (a.stars = b.stars ∧ b.forks ≤ a.forks)) ∧
    (get_own_public_repos_and_total_stars pages).2 =
      (((get_own_public_repos_and_total_stars pages).1).map RepoEntry.stars).sum := by
  have hunfold : get_own_public_repos_and_total_stars pages =
      (sortLe entryLe pages.flatten, ((pages.flatten).map RepoEntry.stars).sum) := by
    rw [get_own_public_repos_and_total_stars]
    rw [pager_pages_foldl pages ([], 0)]
    simp
  rw [hunfold]
  constructor
  · exact List.Chain'.imp (fun a b h => of_decide_eq_true h)
      (chain'_sortLe entryLe entryLe_total pages.flatten)
  · simp only
    rw [summap_sortLe]

/-- C5: patching replaces everything strictly between the first start
marker and the first end marker after it with newline + block + newline,
preserving the markers and the surrounding text (stated for documents
whose tail after the first pair holds no further pair; `re.sub` would
also rewrite any later pairs, and the input contract allows exactly one);
the spec's concrete instance holds, and a document with no marker pair is
returned unchanged. -/
theorem claim5 :
    patchString "A<!--STATS:START-->old<!--STATS:END-->B" "new" =
      "A<!--STATS:START-->\nnew\n<!--STATS:END-->B" ∧
    (∀ content block : String, hasMarkerPair content.data = false →
      patchString content block = content) ∧
    (∀ (content block : String) (pre rest mid suf : List Char),
      splitFirst startChars content.data = some (pre, rest) →
      splitFirst endChars rest = some (mid, suf) →
      hasMarkerPair suf = false →
      patchString content block =
        String.mk (pre ++ startChars ++ '\n' :: block.data ++ '\n' :: (endChars ++ suf))) := by
  refine ⟨by decide, ?_, ?_⟩
  · intro content block h
    rw [patchString, patchCore, patchAux_no_pair block.data content.data.length content.data h]
  · intro content block pre rest mid suf h1 h2 h3
    rw [patchString, patchCore_shape content.data block.data pre rest mid suf h1 h2 h3]

theorem claim5_witness :
    hasMarkerPair "plain text".data = false ∧
    patchString "plain text" "new" = "plain text" :=
  ⟨by decide, claim5.2.1 "plain text" "new" (by decide)⟩

/-- C6: the document is written back only when the patched text differs
from the original, in which case the status line is `README updated.`,
otherwise `No changes.` and no write; and patching a document that
already holds the rendered block between its markers (with no further
marker pair after them) returns the document unchanged, so the second of
two identical runs performs no write. -/
theorem claim6 :
    (∀ content block : String, (mainPatchStep content block).wrote = true →
      patchString content block ≠ content) ∧
    (∀ content block : String, patchString content block = content →
      (mainPatchStep content block).wrote = false ∧
      (mainPatchStep content block).status = "No changes." ∧
      (mainPatchStep content block).finalDoc = content) ∧
    (∀ (content block : String) (pre rest suf : List Char),
      splitFirst startChars content.data = some (pre, rest) →
      splitFirst endChars rest = some ('\n' :: (block.data ++ ['\n']), suf) →
      hasMarkerPair suf = false →
      patchString content block = content ∧
      (mainPatchStep content block).wrote = false ∧
      (mainPatchStep content block).status = "No changes.") := by
  have hstep : ∀ content block : String, patchString content block = content →
      (mainPatchStep content block).wrote = false ∧
      (mainPatchStep content block).status = "No changes." ∧
      (mainPatchStep content block).finalDoc = content := by
    intro content block heq
    simp [mainPatchStep, heq]
  refine ⟨?_, hstep, ?_⟩
  · intro content block hw heq
    have := (hstep content block heq).1
    rw [hw] at this
    cases this
  · intro content block pre rest suf h1 h2 h3
    have hshape := patchCore_shape content.data block.data pre rest
      ('\n' :: (block.data ++ ['\n'])) suf h1 h2 h3
    have hdoc : content.data = pre ++ startChars ++ rest :=
      splitFirst_eq startChars content.data pre rest h1
    have hrest : rest = ('\n' :: (block.data ++ ['\n'])) ++ endChars ++ suf :=
      splitFirst_eq endChars rest ('\n' :: (block.data ++ ['\n'])) suf h2
    have heq : patchString content block = content := by
      rw [patchString, hshape]
      conv_rhs => rw [← stringMk_data content]
      rw [hdoc, hrest]
      simp
    exact ⟨heq, (hstep content block heq).1, (hstep content block heq).2.1⟩

theorem claim6_witness :
    patchString "A<!--STATS:START-->\nnew\n<!--STATS:END-->B" "new" =
      "A<!--STATS:START-->\nnew\n<!--STATS:END-->B" ∧
    (mainPatchStep "A<!--STATS:START-->\nnew\n<!--STATS:END-->B" "new").wrote = false ∧
    (mainPatchStep "A<!--STATS:START-->\nnew\n<!--STATS:END-->B" "new").status =
      "No changes." :=
  claim6.2.2 "A<!--STATS:START-->\nnew\n<!--STATS:END-->B" "new"
    "A".data "\nnew\n<!--STATS:END-->B".data "B".data
    (by decide) (by decide) (by decide)

/-- C1: `get_years` yields the years in strictly ascending order (given
that no reported year is in the future), and the all-time merge leaves at
every repository key the star/fork/url snapshot of the last year that
observed it, with the commit/PR/issue counters summed over all observed
years; with two observations in different years this is the later year's
snapshot. -/
theorem claim1 (cys : List Int) (cur : Int) (collect : Int → RepoMap) (k : String)
    (hcur : ∀ y ∈ cys, y ≤ cur)
    (hnd : ∀ y ∈ get_years cys cur, (keysOf (collect y)).Nodup)
    (o : RepoRec) (os : List RepoRec)
    (hobs : occList ((get_years cys cur).map collect) k = o :: os) :
    (get_years cys cur).Chain' (fun a b => a < b) ∧
    lookupA (mergedAllTime cys cur collect) k =
      some { url := (os.getLastD o).url, stars := (os.getLastD o).stars,
             forks := (os.getLastD o).forks,
             commit := o.commit + (os.map RepoRec.commit).sum,
             pr := o.pr + (os.map RepoRec.pr).sum,
             issue := o.issue + (os.map RepoRec.issue).sum } := by
  refine ⟨chain'_get_years cys cur hcur, ?_⟩
  have hbridge : mergedAllTime cys cur collect =
      ((get_years cys cur).map collect).foldl mergeYear [] := by
    rw [mergedAllTime]
    simp only [List.foldl_map]
  have hnd' : ∀ p ∈ (get_years cys cur).map collect, (keysOf p).Nodup := by
    intro p hp
    obtain ⟨y, hy, hyp⟩ := List.mem_map.mp hp
    exact hyp ▸ hnd y hy
  rw [hbridge, lookupA_foldl_mergeYear _ [] k hnd', hobs]
  show mergeOpt none (o :: os) = _
  show some (os.foldl combineRec o) = _
  rw [foldl_combineRec_eq]

/-- Concrete collaborator responses for the aggregation witnesses:
the repository `u/r` observed in 2020 with 1 star and in 2021 with 5
stars. -/
def wCollect1 : Int → RepoMap := fun y =>
  if y = 2020 then [("u/r", ⟨"url2020", 1, 0, 1, 0, 0⟩)]
  else if y = 2021 then [("u/r", ⟨"url2021", 5, 2, 2, 0, 0⟩)]
  else []

theorem claim1_witness :
    (∀ y ∈ ([2020, 2021] : List Int), y ≤ (2021 : Int)) ∧
    lookupA (mergedAllTime [2020, 2021] 2021 wCollect1) "u/r" =
      some ⟨"url2021", 5, 2, 3, 0, 0⟩ :=
  ⟨by decide,
    (claim1 [2020, 2021] 2021 wCollect1 "u/r" (by decide) (by decide)
      ⟨"url2020", 1, 0, 1, 0, 0⟩ [⟨"url2021", 5, 2, 2, 0, 0⟩] (by decide)).2⟩

/-- C2: an aggregated record whose commit+PR+issue total is zero appears
in neither classified output set of `aggregate_contributions_all_time`. -/
theorem claim2 (login : String) (cys : List Int) (cur : Int) (collect : Int → RepoMap)
    (k : String) (v : RepoRec)
    (hv : lookupA (mergedAllTime cys cur collect) k = some v)
    (h0 : v.commit + v.pr + v.issue = 0) :
    (∀ r ∈ (aggregate_contributions_all_time login cys cur collect).mine, r.name ≠ k) ∧
    (∀ r ∈ (aggregate_contributions_all_time login cys cur collect).others, r.name ≠ k) := by
  have hnd := nodup_mergedAllTime cys cur collect
  have hmem := lookupA_mem _ _ _ hv
  have hmine : (aggregate_contributions_all_time login cys cur collect).mine =
      sortLe rowLe (classifyRaw login (mergedAllTime cys cur collect)).1 := rfl
  have hoth : (aggregate_contributions_all_time login cys cur collect).others =
      sortLe rowLe (classifyRaw login (mergedAllTime cys cur collect)).2 := rfl
  constructor
  · intro r hr
    rw [hmine] at hr
    have hr' := (mem_sortLe rowLe r _).mp hr
    obtain ⟨n, v', hm, hrow, ht, _⟩ :=
      classifyRaw_mine_sound login (mergedAllTime cys cur collect) r hr'
    intro hname
    have hn : n = k := by
      rw [hrow] at hname
      simpa [mkRow] using hname
    subst hn
    have hvv : v' = v := lookupA_unique _ _ _ _ hnd hm hmem
    exact ht (by rw [hvv]; exact h0)
  · intro r hr
    rw [hoth] at hr
    have hr' := (mem_sortLe rowLe r _).mp hr
    obtain ⟨n, v', hm, hrow, ht, _⟩ :=
      classifyRaw_others_sound login (mergedAllTime cys cur collect) r hr'
    intro hname
    have hn : n = k := by
      rw [hrow] at hname
      simpa [mkRow] using hname
    subst hn
    have hvv : v' = v := lookupA_unique _ _ _ _ hnd hm hmem
    exact ht (by rw [hvv]; exact h0)

/-- Collaborator responses with a zero-total observation of `u/z`
(possible for zero-count edge observations). -/
def wCollect2 : Int → RepoMap := fun y =>
  if y = 2021 then [("u/z", ⟨"urlz", 3, 1, 0, 0, 0⟩)] else []

theorem claim2_witness :
    lookupA (mergedAllTime [2021] 2021 wCollect2) "u/z" = some ⟨"urlz", 3, 1, 0, 0, 0⟩ ∧
    (∀ r ∈ (aggregate_contributions_all_time "u" [2021] 2021 wCollect2).mine,
      r.name ≠ "u/z") ∧
    (∀ r ∈ (aggregate_contributions_all_time "u" [2021] 2021 wCollect2).others,
      r.name ≠ "u/z") :=
  ⟨by decide,
    (claim2 "u" [2021] 2021 wCollect2 "u/z" ⟨"urlz", 3, 1, 0, 0, 0⟩ (by decide) (by decide)).1,
    (claim2 "u" [2021] 2021 wCollect2 "u/z" ⟨"urlz", 3, 1, 0, 0, 0⟩ (by decide) (by decide)).2⟩

/-- C3: an aggregated record with positive total is classified into
exactly one output set: into the owned set exactly when the owner segment
before the first `/` (empty if no `/`) equals the configured login
case-insensitively, and into the external set otherwise — never both,
never neither. -/
theorem claim3 (login : String) (cys : List Int) (cur : Int) (collect : Int → RepoMap)
    (k : String) (v : RepoRec)
    (hv : lookupA (mergedAllTime cys cur collect) k = some v)
    (hpos : v.commit + v.pr + v.issue ≠ 0) :
    (ownerSeg k = lowerL login.data →
      mkRow k v ∈ (aggregate_contributions_all_time login cys cur collect).mine ∧
      mkRow k v ∉ (aggregate_contributions_all_time login cys cur collect).others) ∧
    (ownerSeg k ≠ lowerL login.data →
      mkRow k v ∈ (aggregate_contributions_all_time login cys cur collect).others ∧
      mkRow k v ∉ (aggregate_contributions_all_time login cys cur collect).mine) := by
  have hmem := lookupA_mem _ _ _ hv
  have hmine : (aggregate_contributions_all_time login cys cur collect).mine =
      sortLe rowLe (classifyRaw login (mergedAllTime cys cur collect)).1 := rfl
  have hoth : (aggregate_contributions_all_time login cys cur collect).others =
      sortLe rowLe (classifyRaw login (mergedAllTime cys cur collect)).2 := rfl
  constructor
  · intro how
    constructor
    · rw [hmine]
      exact (mem_sortLe rowLe _ _).mpr
        (classifyRaw_mine_complete login _ k v hmem hpos how)
    · intro habs
      rw [hoth] at habs
      obtain ⟨n, v', _, hrow, _, how'⟩ :=
        classifyRaw_others_sound login (mergedAllTime cys cur collect) _
          ((mem_sortLe rowLe _ _).mp habs)
      have hn : n = k := by
        have := congrArg Row.name hrow
        simpa [mkRow] using this.symm
      subst hn
      exact how' how
  · intro how
    constructor
    · rw [hoth]
      exact (mem_sortLe rowLe _ _).mpr
        (classifyRaw_others_complete login _ k v hmem hpos how)
    · intro habs
      rw [hmine] at habs
      obtain ⟨n, v', _, hrow, _, how'⟩ :=
        classifyRaw_mine_sound login (mergedAllTime cys cur collect) _
          ((mem_sortLe rowLe _ _).mp habs)
      have hn : n = k := by
        have := congrArg Row.name hrow
        simpa [mkRow] using this.symm
      subst hn
      exact how how'

theorem claim3_witness :
    ownerSeg "u/r" = lowerL "U".data ∧
    mkRow "u/r" ⟨"url2021", 5, 2, 3, 0, 0⟩ ∈
      (aggregate_contributions_all_time "U" [2020, 2021] 2021 wCollect1).mine ∧
    mkRow "u/r" ⟨"url2021", 5, 2, 3, 0, 0⟩ ∉
      (aggregate_contributions_all_time "U" [2020, 2021] 2021 wCollect1).others :=
  ⟨by decide,
    (claim3 "U" [2020, 2021] 2021 wCollect1 "u/r" ⟨"url2021", 5, 2, 3, 0, 0⟩
      (by decide) (by decide)).1 (by decide)⟩

/-- C4: both classified output sequences are sorted so that every
adjacent pair has strictly more stars, or equal stars and at least as
many forks; among records with equal stars and forks the order of the
pre-sort (classification-time) sequence is preserved, and the sort is a
pure function of its input, so identical input yields identical output. -/
theorem claim4 (login : String) (cys : List Int) (cur : Int) (collect : Int → RepoMap) :
    ((aggregate_contributions_all_time login cys cur collect).mine).Chain'
      (fun a b => b.stars < a.stars ∨ (a.stars = b.stars ∧ b.forks ≤ a.forks)) ∧
    ((aggregate_contributions_all_time login cys cur collect).others).Chain'
      (fun a b => b.stars < a.stars ∨ (a.stars = b.stars ∧ b.forks ≤ a.forks)) ∧
    (∀ s f : Nat,
      (aggregate_contributions_all_time login cys cur collect).mine.filter
          (fun r => decide (r.stars = s ∧ r.forks = f)) =
        (classifyRaw login (mergedAllTime cys cur collect)).1.filter
          (fun r => decide (r.stars = s ∧ r.forks = f))) ∧
    (∀ s f : Nat,
      (aggregate_contributions_all_time login cys cur collect).others.filter
          (fun r => decide (r.stars = s ∧ r.forks = f)) =
        (classifyRaw login (mergedAllTime cys cur collect)).2.filter
          (fun r => decide (r.stars = s ∧ r.forks = f))) ∧
    aggregate_contributions_all_time login cys cur collect =
      aggregate_contributions_all_time login cys cur collect := by
  have hmine : (aggregate_contributions_all_time login cys cur collect).mine =
      sortLe rowLe (classifyRaw login (mergedAllTime cys cur collect)).1 := rfl
  have hoth : (aggregate_contributions_all_time login cys cur collect).others =
      sortLe rowLe (classifyRaw login (mergedAllTime cys cur collect)).2 := rfl
  have hcls : ∀ s f : Nat, ∀ a b : Row,
      (fun r => decide (r.stars = s ∧ r.forks = f)) a = true →
      (fun r => decide (r.stars = s ∧ r.forks = f)) b = true → rowLe a b = true := by
    intro s f a b ha hb
    simp only [decide_eq_true_eq] at ha hb
    simp only [rowLe, decide_eq_true_eq]
    omega
  refine ⟨?_, ?_, ?_, ?_, rfl⟩
  · rw [hmine]
    exact List.Chain'.imp (fun a b h => of_decide_eq_true h)
      (chain'_sortLe rowLe rowLe_total _)
  · rw [hoth]
    exact List.Chain'.imp (fun a b h => of_decide_eq_true h)
      (chain'_sortLe rowLe rowLe_total _)
  · intro s f
    rw [hmine]
    exact filter_sortLe rowLe _ (hcls s f) _
  · intro s f
    rw [hoth]
    exact filter_sortLe rowLe _ (hcls s f) _
